import Mathlib

/-!
# CSV analytics core: shallow embedding

Embedding of the ingestion and aggregation core of the `DataAnalyzerFile`
component (source file `part_001`): date parsing with the fixed format
`yyyy.MM.dd HH:mm:ss`, row normalization and the retention filter of
`parseCsvFile`, and the memoized derived views (`monthlyCreations`,
`durationStats`, `durationHistogramData`, `staffActivity`,
`actionTypeCounts`, `registrationToActionDuration`), plus the component
state updates (`handleClearData`, the `parseCsvFile` state transitions).

Conventions of the embedding:
* JS numbers are modelled exactly: durations are `Int` day/hour counts and
  averages/medians are `Rat` (the claims are about exact values such as
  `2.5`; IEEE rounding is not in scope for any claim).
* A JS `Date` is modelled by its civil components (`DateTime`) together
  with its timestamp in seconds (`toTimestamp`); naive local time, no DST.
* A missing CSV column (`undefined`) and the empty string are both falsy
  in the source's truthiness tests, so string fields model both as `""`.
* JS `Array.prototype.sort` is stable (ES2019); it is modelled by
  `List.insertionSort`, which is also stable (an element is inserted after
  the equal elements already placed, preserving first-seen order).
* A JS object with string keys enumerates in insertion order; the count /
  group objects are modelled by association lists extended at the tail.
-/

/-- Civil datetime as parsed from `yyyy.MM.dd HH:mm:ss` (models a JS `Date`
holding the parsed components; naive local time, no timezone conversion). -/
structure DateTime where
  year : Nat
  month : Nat
  day : Nat
  hour : Nat
  minute : Nat
  second : Nat
  deriving DecidableEq, Repr

/-- Numeric value of a decimal digit character, `none` for a non-digit. -/
def digitVal (c : Char) : Option Nat :=
  if c.isDigit then some (c.toNat - 48) else none

/-- Continue a greedy digit run: consume up to `fuel` more digits into the
accumulator, stopping at the first non-digit. -/
def takeDigitsAux : Nat → Nat → List Char → Nat × List Char
  | 0, acc, cs => (acc, cs)
  | Nat.succ fuel, acc, c :: cs =>
    match digitVal c with
    | some d => takeDigitsAux fuel (acc * 10 + d) cs
    | none => (acc, c :: cs)
  | Nat.succ _, acc, [] => (acc, [])

/-- date-fns `parseNDigits(n, s)`: greedily match between one and `n` leading
decimal digits (its pattern is `\d{1,n}` anchored at the start), returning
the digits' value and the remaining characters; `none` when the input does
not start with a digit. -/
def takeDigits (n : Nat) (cs : List Char) : Option (Nat × List Char) :=
  match cs with
  | c :: rest =>
    match digitVal c with
    | some d => some (takeDigitsAux (n - 1) d rest)
    | none => none
  | [] => none

/-- Consume one literal separator character of the format, `none` on any
other character or at the end of the input. -/
def expectChar (c : Char) (cs : List Char) : Option (List Char) :=
  match cs with
  | c' :: rest => if c' = c then some rest else none
  | [] => none

/-- Days in a month of the proleptic Gregorian calendar, used by the
format validation (date-fns validates the day against the month's length). -/
def daysInMonth (y m : Nat) : Nat :=
  if m = 2 then (if y % 4 = 0 ∧ (y % 100 ≠ 0 ∨ y % 400 = 0) then 29 else 28)
  else if m = 4 ∨ m = 6 ∨ m = 9 ∨ m = 11 then 30
  else 31

/-- Parser for the format `yyyy.MM.dd HH:mm:ss` used by `parseDate` —
date-fns `parse(s, 'yyyy.MM.dd HH:mm:ss', new Date())` followed by the
`isValid` check. date-fns is lenient about padding: each numeric token
greedily matches one up to its width of digits (`\d{1,4}` for `yyyy`,
`\d{1,2}` for the two-character tokens), each separator matches literally,
leftover input is rejected only when it contains a non-whitespace character
(the `/\S/` test, so trailing whitespace is tolerated), and every component
must validate — a positive year (the date-fns year parser validates
`year > 0` for non-two-digit-year tokens), month 1-12, day within the
month's length, hour ≤ 23, minute and second ≤ 59. Anything else gives an
invalid `Date` on the JS side, which `parseDate` maps to `null`, modelled as
`none`. -/
def parseDateFormat (cs : List Char) : Option DateTime :=
  match takeDigits 4 cs with
  | none => none
  | some (y, cs1) =>
  match expectChar '.' cs1 with
  | none => none
  | some cs2 =>
  match takeDigits 2 cs2 with
  | none => none
  | some (mo, cs3) =>
  match expectChar '.' cs3 with
  | none => none
  | some cs4 =>
  match takeDigits 2 cs4 with
  | none => none
  | some (d, cs5) =>
  match expectChar ' ' cs5 with
  | none => none
  | some cs6 =>
  match takeDigits 2 cs6 with
  | none => none
  | some (h, cs7) =>
  match expectChar ':' cs7 with
  | none => none
  | some cs8 =>
  match takeDigits 2 cs8 with
  | none => none
  | some (mi, cs9) =>
  match expectChar ':' cs9 with
  | none => none
  | some cs10 =>
  match takeDigits 2 cs10 with
  | none => none
  | some (se, rest) =>
  if (rest.all fun c => c.isWhitespace) ∧ 1 ≤ y ∧ 1 ≤ mo ∧ mo ≤ 12 ∧ 1 ≤ d
      ∧ d ≤ daysInMonth y mo ∧ h ≤ 23 ∧ mi ≤ 59 ∧ se ≤ 59 then
    some { year := y, month := mo, day := d, hour := h, minute := mi, second := se }
  else none

/-- `parseDate` (part_001 lines 28-39): `null` for a missing/empty field;
otherwise strip everything from the first comma on
(`dateString.split(',')[0]`) and parse the fixed format. An unparseable
string yields `null`; the function never throws (the `try`/`catch` in the
source catches any parse exception and returns `null`). -/
def parseDate (dateString : String) : Option DateTime :=
  if dateString = "" then none
  else parseDateFormat (dateString.toList.takeWhile fun c => c ≠ ',')

/-- Day number of a civil date (Howard Hinnant's `days_from_civil`, the
arithmetic underlying JS `Date` values); day 0 is 1970-01-01. -/
def daysFromCivil (y m d : Int) : Int :=
  let y2 := if m ≤ 2 then y - 1 else y
  let era := Int.fdiv y2 400
  let yoe := y2 - era * 400
  let mp := Int.emod (m + 9) 12
  let doy := Int.fdiv (153 * mp + 2) 5 + d - 1
  let doe := yoe * 365 + Int.fdiv yoe 4 - Int.fdiv yoe 100 + doy
  era * 146097 + doe - 719468

/-- Timestamp in seconds of a `DateTime` (the numeric value of the JS `Date`,
in seconds rather than milliseconds; naive time). `Date` comparisons and the
date-fns differences in the source reduce to this value. -/
def toTimestamp (t : DateTime) : Int :=
  daysFromCivil t.year t.month t.day * 86400
    + (t.hour : Int) * 3600 + (t.minute : Int) * 60 + (t.second : Int)

/-- date-fns `differenceInDays(a, b)`: the signed number of full 24-hour
periods between the two timestamps, truncated toward zero. -/
def differenceInDays (a b : Int) : Int := Int.tdiv (a - b) 86400

/-- date-fns `differenceInHours(a, b)`: full hours, truncated toward zero. -/
def differenceInHours (a b : Int) : Int := Int.tdiv (a - b) 3600

/-- A raw CSV row as produced by `Papa.parse(file, { header: true,
delimiter: ';' })`, restricted to the columns the component reads; a column
missing from the file is `undefined` in JS, which is falsy exactly like the
empty string, so both are modelled as `""`. -/
structure RawRow where
  ID : String
  CREATED_DATE : String
  ACTION_DATE : String
  REGISTRATION_DATE : String
  STAFF : String
  ACTION : String
  REFERENCE : String
  deriving DecidableEq, Repr

/-- A processed row (part_001 lines 115-121): the raw fields spread through
(`...row`) plus the parsed dates and the eagerly computed durations. -/
structure NormalizedRecord where
  ID : String
  CREATED_DATE : String
  ACTION_DATE : String
  REGISTRATION_DATE : String
  STAFF : String
  ACTION : String
  REFERENCE : String
  createdDateValid : Option DateTime
  actionDateValid : Option DateTime
  durationDays : Option Int
  durationHours : Option Int
  deriving DecidableEq, Repr

/-- The `.map` body of `parseCsvFile` (lines 91-122): parse `CREATED_DATE`
and `ACTION_DATE`; when both parse and `actionDate >= createdDate`, fill in
`durationDays` / `durationHours`, otherwise leave them `null`. -/
def normalizeRow (row : RawRow) : NormalizedRecord :=
  let createdDate := parseDate row.CREATED_DATE
  let actionDate := parseDate row.ACTION_DATE
  let durations : Option (Int × Int) :=
    match createdDate, actionDate with
    | some c, some a =>
      if toTimestamp c ≤ toTimestamp a then
        some (differenceInDays (toTimestamp a) (toTimestamp c),
          differenceInHours (toTimestamp a) (toTimestamp c))
      else none
    | _, _ => none
  { ID := row.ID, CREATED_DATE := row.CREATED_DATE, ACTION_DATE := row.ACTION_DATE,
    REGISTRATION_DATE := row.REGISTRATION_DATE, STAFF := row.STAFF,
    ACTION := row.ACTION, REFERENCE := row.REFERENCE,
    createdDateValid := createdDate, actionDateValid := actionDate,
    durationDays := durations.map Prod.fst, durationHours := durations.map Prod.snd }

/-- The `.map(...).filter(...)` pipeline of `parseCsvFile` (lines 90-126).
The retention filter tests the RAW string fields for truthiness
(`row.ID && row.CREATED_DATE && row.ACTION_DATE` on the spread row), i.e.
non-emptiness — not the parsed date values. -/
def processRows (rows : List RawRow) : List NormalizedRecord :=
  (rows.map normalizeRow).filter fun r =>
    decide (r.ID ≠ "" ∧ r.CREATED_DATE ≠ "" ∧ r.ACTION_DATE ≠ "")

/-- `format(date, 'yyyy-MM')` keyed numerically: for the four-digit years the
strict parser produces, the zero-padded `yyyy-MM` strings compare under
`localeCompare` exactly as the number `year * 100 + month` does. -/
def monthKey (t : DateTime) : Nat := t.year * 100 + t.month

/-- One step of the `counts[key] = (counts[key] || 0) + 1` accumulation over a
JS object: string-keyed objects enumerate in insertion order, modelled as an
association list extended at the tail for a first-seen key. -/
def bump {κ : Type} [DecidableEq κ] (acc : List (κ × Nat)) (k : κ) : List (κ × Nat) :=
  match acc with
  | [] => [(k, 1)]
  | (k', c) :: rest => if k = k' then (k', c + 1) :: rest else (k', c) :: bump rest k

/-- `Object.entries` of the count object built over a key list. -/
def countByKey {κ : Type} [DecidableEq κ] (keys : List κ) : List (κ × Nat) :=
  keys.foldl bump []

/-- One entry of `monthlyCreations`: a `yyyy-MM` month key with its count. -/
structure MonthCount where
  month : Nat
  count : Nat
  deriving DecidableEq, Repr

/-- `monthlyCreations` (lines 194-207): count rows per `yyyy-MM` month of a
valid `createdDateValid`, then sort ascending by the month key
(`a.month.localeCompare(b.month)`). -/
def monthlyCreations (parsedData : List NormalizedRecord) : List MonthCount :=
  if parsedData = [] then [] else
  let keys := parsedData.filterMap fun row => row.createdDateValid.map monthKey
  List.insertionSort (fun a b => a.month ≤ b.month)
    ((countByKey keys).map fun e => { month := e.1, count := e.2 : MonthCount })

/-- The result of `durationStats`. -/
structure DurationStats where
  average : Rat
  median : Rat
  min : Int
  max : Int
  durations : List Int
  deriving DecidableEq, Repr

/-- `durationStats` (lines 209-232): keep the non-null, non-negative
`durationDays`, sort ascending in place, and take mean, index-based median,
first element as min and last element as max; an empty filtered set (or empty
input) gives the all-zero stats with an empty sequence. -/
def durationStats (parsedData : List NormalizedRecord) : DurationStats :=
  if parsedData = [] then { average := 0, median := 0, min := 0, max := 0, durations := [] } else
  let durations : List Int := (parsedData.map fun row => row.durationDays).filterMap fun d =>
    match d with
    | some v => if 0 ≤ v then some v else none
    | none => none
  if durations = [] then { average := 0, median := 0, min := 0, max := 0, durations := [] } else
  let durations := List.insertionSort (fun a b : Int => a ≤ b) durations
  let sum := durations.sum
  let average : Rat := (sum : Rat) / (durations.length : Rat)
  let mid := durations.length / 2
  let median : Rat :=
    if durations.length % 2 ≠ 0 then (Int.cast (durations.getD mid 0) : Rat)
    else (Int.cast (durations.getD (mid - 1) 0 + durations.getD mid 0) : Rat) / 2
  { average := average, median := median,
    min := durations.headD 0, max := durations.getLastD 0, durations := durations }

/-- One histogram bar: the bin label and its count. -/
structure HistBin where
  range : String
  count : Nat
  deriving DecidableEq, Repr

/-- The bin width and unit label chosen from the maximum duration
(lines 239-257); the source's final `binSize = Math.max(binSize, 1)` is a
no-op since every branch sets a positive width. -/
def binSizeUnit (maxDuration : Int) : Nat × String :=
  if maxDuration ≤ 1 then (1, "day(s) (0-1)")
  else if maxDuration ≤ 14 then (1, "day(s)")
  else if maxDuration ≤ 60 then (7, "week(s)")
  else if maxDuration ≤ 365 then (30, "month(s)")
  else (90, "quarter(s)")

/-- The bin label (lines 266-272 and 281-289). `unit.includes('day(s)')` is
modelled by splitting on the substring; it holds exactly for the two day
units. For day-unit histograms (width 1) the label is the bare start, for
weeks the 1-based week index with its approximate day range, otherwise the
inclusive day range. -/
def binName (unit : String) (binSize binIndex : Nat) : String :=
  let binStart := binIndex * binSize
  let binEnd := binStart + binSize - 1
  if (unit.splitOn "day(s)").length > 1 then
    if binSize = 1 then s!"{binStart} day(s)" else s!"{binStart}-{binEnd} days"
  else if binSize = 7 then
    let weekIndex := binIndex + 1
    s!"Week {weekIndex} (~{binStart}-{binEnd}d)"
  else s!"{binStart}-{binEnd} days"

/-- `Math.floor(duration / binSize)` (line 263); the durations fed to the
histogram come from `durationStats` and are non-negative, so `Int.toNat` is
exact and the floor of the quotient is `Nat` division. -/
def binIndexOf (binSize : Nat) (d : Int) : Nat := d.toNat / binSize

/-- The zero-filled `sortedBins` array (lines 259-291): `maxBinValue` is the
largest bin start among the durations, and the output walks the bin starts
`0, binSize, ..., maxBinValue` — indices `0 .. maxBinValue / binSize` — with
each bin's label and the number of durations falling in it. The source
accumulates the counts in an object keyed by the bin LABEL; for the fixed
width and unit of one run the label is determined by (and determines) the
bin index, so the count object is modelled per index. -/
def histBins (unit : String) (binSize : Nat) (durations : List Int) : List HistBin :=
  let maxBinValue := (durations.map fun d => binIndexOf binSize d * binSize).foldl max 0
  (List.range (maxBinValue / binSize + 1)).map fun i =>
    { range := binName unit binSize i,
      count := (durations.filter fun d => decide (binIndexOf binSize d = i)).length }

/-- `durationHistogramData` (lines 234-307): choose width and unit from the
maximum duration, build the zero-filled bins, then apply the
near-zero-spread collapse of lines 293-304. -/
def durationHistogramData (stats : DurationStats) : List HistBin :=
  if stats.durations = [] then [] else
  let durations := stats.durations
  let maxDuration := durations.foldl max 0
  let bs := binSizeUnit maxDuration
  let binSize := bs.1
  let unit := bs.2
  let sortedBins := histBins unit binSize durations
  if maxDuration ≤ 1 ∧ binSize = 1 then
    if sortedBins.length > 1 then
      [{ range := "0-1 day(s)", count := sortedBins.foldl (fun s b => s + b.count) 0 }]
    else
      match sortedBins with
      | [] => [{ range := "0 day(s)", count := 0 }]
      | b :: rest => { b with range := "0-1 day(s)" } :: rest
  else sortedBins

/-- One entry of the per-staff average-duration ranking. -/
structure StaffAvg where
  staff : String
  avgDurationDays : Rat
  deriving DecidableEq, Repr

/-- One entry of the per-staff action-count ranking. -/
structure StaffCount where
  staff : String
  count : Nat
  deriving DecidableEq, Repr

/-- The two rankings returned by `staffActivity`. -/
structure StaffActivity where
  durations : List StaffAvg
  counts : List StaffCount
  deriving DecidableEq, Repr

/-- Whether a row enters the per-staff accumulation (lines 315-319):
`row.STAFF && row.durationDays !== null && row.durationDays >= 0`. -/
def qualifiesStaff (r : NormalizedRecord) : Bool :=
  r.STAFF != "" &&
    match r.durationDays with
    | some d => decide (0 ≤ d)
    | none => false

/-- One step of the `staffData[staff]` accumulation (lines 320-324): add the
row's duration to the staff's running total and bump its count; a first-seen
staff is appended at the tail (JS object insertion order). -/
def bumpStaff (acc : List (String × Int × Nat)) (staff : String) (d : Int) :
    List (String × Int × Nat) :=
  match acc with
  | [] => [(staff, d, 1)]
  | (s, tot, c) :: rest =>
    if staff = s then (s, tot + d, c + 1) :: rest else (s, tot, c) :: bumpStaff rest staff d

/-- The `staffData` object of `staffActivity` (lines 312-326), as
`Object.entries` would list it: per staff, the running duration total and the
count of qualifying rows. For a qualifying row `durationDays` is `some d`,
which `Option.getD` extracts. -/
def staffFold (parsedData : List NormalizedRecord) : List (String × Int × Nat) :=
  parsedData.foldl
    (fun acc r => if qualifiesStaff r then bumpStaff acc r.STAFF (r.durationDays.getD 0) else acc)
    []

/-- `staffActivity` (lines 309-344): per-staff average durations sorted
descending by average (`b.avgDurationDays - a.avgDurationDays`), and
per-staff counts sorted descending by count (`b.count - a.count`). -/
def staffActivity (parsedData : List NormalizedRecord) : StaffActivity :=
  if parsedData = [] then { durations := [], counts := [] } else
  let staffData := staffFold parsedData
  let avgDurations := List.insertionSort (fun a b => b.avgDurationDays ≤ a.avgDurationDays)
    (staffData.map fun e =>
      { staff := e.1,
        avgDurationDays := if e.2.2 > 0 then (e.2.1 : Rat) / (e.2.2 : Rat) else 0 : StaffAvg })
  let counts := List.insertionSort (fun a b => b.count ≤ a.count)
    (staffData.map fun e => { staff := e.1, count := e.2.2 : StaffCount })
  { durations := avgDurations, counts := counts }

/-- One slice of the action-type pie: the action label and its count. -/
structure ActionCount where
  name : String
  value : Nat
  deriving DecidableEq, Repr

/-- `actionTypeCounts` (lines 346-358): count rows per truthy `ACTION` label,
sorted descending by count. -/
def actionTypeCounts (parsedData : List NormalizedRecord) : List ActionCount :=
  if parsedData = [] then [] else
  let keys := parsedData.filterMap fun row => if row.ACTION ≠ "" then some row.ACTION else none
  List.insertionSort (fun a b => b.value ≤ a.value)
    ((countByKey keys).map fun e => { name := e.1, value := e.2 : ActionCount })

/-- One retained registration-to-action entry (lines 375-379). -/
structure RegEntry where
  id : String
  reference : String
  regToActionDays : Int
  deriving DecidableEq, Repr

/-- The result of `registrationToActionDuration`. -/
structure RegStats where
  average : Rat
  median : Rat
  data : List RegEntry
  deriving DecidableEq, Repr

/-- The per-row step of `registrationToActionDuration` (lines 364-382):
re-parse `REGISTRATION_DATE` independently of the normalization pass, diff in
full days against the normalized `actionDateValid`, and keep the entry only
when the diff is non-negative. -/
def regEntry (row : NormalizedRecord) : Option RegEntry :=
  match parseDate row.REGISTRATION_DATE, row.actionDateValid with
  | some regDate, some actionDate =>
    let diffDays := differenceInDays (toTimestamp actionDate) (toTimestamp regDate)
    if 0 ≤ diffDays then
      some { id := row.ID, reference := row.REFERENCE, regToActionDays := diffDays }
    else none
  | _, _ => none

/-- `registrationToActionDuration` (lines 360-395): collect the non-negative
registration-to-action day diffs, then compute average and median over the
ascending-sorted diffs exactly as `durationStats` does; an empty input or an
empty diff set gives the zero stats (the source then carries no `data` field,
modelled as the empty list). -/
def registrationToActionDuration (parsedData : List NormalizedRecord) : RegStats :=
  if parsedData = [] then { average := 0, median := 0, data := [] } else
  let durations := parsedData.filterMap regEntry
  if durations = [] then { average := 0, median := 0, data := [] } else
  let daysArray : List Int :=
    List.insertionSort (fun a b : Int => a ≤ b) (durations.map fun d => d.regToActionDays)
  let average : Rat := (daysArray.sum : Rat) / (daysArray.length : Rat)
  let mid := daysArray.length / 2
  let median : Rat :=
    if daysArray.length % 2 ≠ 0 then (Int.cast (daysArray.getD mid 0) : Rat)
    else (Int.cast (daysArray.getD (mid - 1) 0 + daysArray.getD mid 0) : Rat) / 2
  { average := average, median := median, data := durations }

/-- The full set of memoized derived views of one `parsedData` (the `useMemo`
family of part_001), bundled as one result. -/
structure AggregationResult where
  monthlySeries : List MonthCount
  durationStats : DurationStats
  durationHistogram : List HistBin
  staffActivity : StaffActivity
  actionTypeCounts : List ActionCount
  registrationToActionStats : RegStats
  deriving DecidableEq, Repr

/-- Computing every derived view from one `parsedData`; `durationHistogram`
is computed from `durationStats` just as the memo depends on it. -/
def aggregate (parsedData : List NormalizedRecord) : AggregationResult :=
  { monthlySeries := monthlyCreations parsedData,
    durationStats := durationStats parsedData,
    durationHistogram := durationHistogramData (durationStats parsedData),
    staffActivity := staffActivity parsedData,
    actionTypeCounts := actionTypeCounts parsedData,
    registrationToActionStats := registrationToActionDuration parsedData }

/-- The component state of `DataAnalyzerFile` (lines 64-67): the four
`useState` variables. -/
structure ComponentState where
  parsedData : List NormalizedRecord
  fileName : String
  loading : Bool
  error : Option String
  deriving DecidableEq, Repr

/-- `handleClearData` (lines 185-190): reset every state variable to its
initial value. -/
def handleClearData (_s : ComponentState) : ComponentState :=
  { parsedData := [], fileName := "", loading := false, error := none }

/-- The `Papa.parse` outcome for one file: the parsed rows (`results.data`)
and the parser's error list (`results.errors`). `Papa.parse` is a
deterministic function of the file bytes and the fixed config, so a
byte-identical file yields the same outcome. -/
structure ParseOutcome where
  data : List RawRow
  errors : List String
  deriving DecidableEq, Repr

/-- The synchronous state updates at the top of `parseCsvFile`
(lines 71-74). -/
def parseCsvStart (fileName : String) (s : ComponentState) : ComponentState :=
  { s with loading := true, error := none, parsedData := [], fileName := fileName }

/-- The `complete` callback of `parseCsvFile` (lines 80-144): on parser
errors, an error message and empty data; otherwise the processed rows, with
the two zero-row diagnostics; `loading` cleared last. -/
def parseCsvComplete (fileName : String) (results : ParseOutcome) (s : ComponentState) :
    ComponentState :=
  if results.errors ≠ [] then
    { s with
      error := some s!"Errors occurred during CSV parsing in {fileName}. Check console.",
      parsedData := [], loading := false }
  else
    let processed := processRows results.data
    let s1 := { s with parsedData := processed, error := none }
    let s2 :=
      if processed.length = 0 ∧ results.data.length > 0 then
        { s1 with
          error := some s!"File {fileName} parsed, but no valid data rows found for analysis." }
      else if processed.length = 0 ∧ results.data.length = 0 then
        { s1 with error := some s!"File {fileName} parsed, but it appears to be empty." }
      else s1
    { s2 with loading := false }

/-- One full ingestion of a file: the synchronous updates of `parseCsvFile`
followed by its `complete` callback on the file's parse outcome. -/
def ingestFile (fileName : String) (results : ParseOutcome) (s : ComponentState) :
    ComponentState :=
  parseCsvComplete fileName results (parseCsvStart fileName s)

section Helpers

variable {κ : Type} [DecidableEq κ]

/-- The count stored for a key: association lists produced by `bump` carry
each key at most once, and this sums all of its copies, which makes the
accumulation lemmas hypothesis-free. -/
def lookupCount (acc : List (κ × Nat)) (k : κ) : Nat :=
  ((acc.filter fun e => decide (e.1 = k)).map Prod.snd).sum

theorem lookupCount_cons (k0 : κ) (c : Nat) (l : List (κ × Nat)) (k' : κ) :
    lookupCount ((k0, c) :: l) k' = (if k0 = k' then c else 0) + lookupCount l k' := by
  by_cases h : k0 = k' <;> simp [lookupCount, h]

theorem bump_lookupCount (acc : List (κ × Nat)) (k k' : κ) :
    lookupCount (bump acc k) k' = lookupCount acc k' + (if k' = k then 1 else 0) := by
  induction acc with
  | nil =>
    by_cases h : k' = k <;> simp [bump, lookupCount, h, eq_comm]
  | cons e rest ih =>
    obtain ⟨k0, c⟩ := e
    show lookupCount (if k = k0 then (k0, c + 1) :: rest else (k0, c) :: bump rest k) k' =
      lookupCount ((k0, c) :: rest) k' + if k' = k then 1 else 0
    by_cases hk : k = k0
    · rw [if_pos hk, lookupCount_cons, lookupCount_cons]
      split_ifs with h1 h2 h3
      · omega
      · exact absurd (hk.trans h1).symm h2
      · exact absurd (h3.trans hk).symm h1
      · omega
    · rw [if_neg hk, lookupCount_cons, lookupCount_cons, ih]
      omega

theorem bump_sumCounts (acc : List (κ × Nat)) (k : κ) :
    ((bump acc k).map Prod.snd).sum = (acc.map Prod.snd).sum + 1 := by
  induction acc with
  | nil => simp [bump]
  | cons e rest ih =>
    obtain ⟨k0, c⟩ := e
    by_cases hk : k = k0
    · simp [bump, hk]; omega
    · simp [bump, hk, ih]; omega

theorem bump_keys (acc : List (κ × Nat)) (k : κ) :
    (bump acc k).map Prod.fst =
      if k ∈ acc.map Prod.fst then acc.map Prod.fst else acc.map Prod.fst ++ [k] := by
  induction acc with
  | nil => simp [bump]
  | cons e rest ih =>
    obtain ⟨k0, c⟩ := e
    by_cases hk : k = k0
    · simp [bump, hk]
    · by_cases hm : k ∈ rest.map Prod.fst <;> simp [bump, hk, ih, hm, Ne.symm hk]

theorem bump_keys_nodup (acc : List (κ × Nat)) (k : κ) (h : (acc.map Prod.fst).Nodup) :
    ((bump acc k).map Prod.fst).Nodup := by
  rw [bump_keys]
  by_cases hm : k ∈ acc.map Prod.fst
  · simpa [hm] using h
  · simp only [hm, if_false, List.nodup_append]
    refine ⟨h, List.nodup_singleton k, ?_⟩
    intro a ha hb
    rw [List.mem_singleton] at hb
    subst hb
    exact hm ha

theorem bump_mem_keys (acc : List (κ × Nat)) (k k' : κ) :
    k' ∈ (bump acc k).map Prod.fst ↔ k' ∈ acc.map Prod.fst ∨ k' = k := by
  rw [bump_keys]
  by_cases hm : k ∈ acc.map Prod.fst
  · simp only [hm, if_true]
    constructor
    · exact Or.inl
    · rintro (h | rfl) <;> [exact h; exact hm]
  · simp [hm, or_comm]

theorem foldl_bump_lookupCount (keys : List κ) (acc : List (κ × Nat)) (k : κ) :
    lookupCount (keys.foldl bump acc) k = lookupCount acc k + keys.count k := by
  induction keys generalizing acc with
  | nil => simp
  | cons key rest ih =>
    simp only [List.foldl_cons, ih, bump_lookupCount, List.count_cons]
    rcases eq_or_ne k key with h | h
    · subst h
      simp only [if_pos rfl, beq_self_eq_true, if_true]
      omega
    · rw [if_neg h, if_neg (by simpa [beq_iff_eq] using Ne.symm h)]
      omega

theorem foldl_bump_sumCounts (keys : List κ) (acc : List (κ × Nat)) :
    (((keys.foldl bump acc)).map Prod.snd).sum = (acc.map Prod.snd).sum + keys.length := by
  induction keys generalizing acc with
  | nil => simp
  | cons key rest ih => simp [List.foldl_cons, ih, bump_sumCounts]; omega

theorem foldl_bump_keys_nodup (keys : List κ) (acc : List (κ × Nat))
    (h : (acc.map Prod.fst).Nodup) : (((keys.foldl bump acc)).map Prod.fst).Nodup := by
  induction keys generalizing acc with
  | nil => simpa
  | cons key rest ih => exact ih _ (bump_keys_nodup _ _ h)

theorem foldl_bump_mem_keys (keys : List κ) (acc : List (κ × Nat)) (k : κ) :
    k ∈ ((keys.foldl bump acc)).map Prod.fst ↔ k ∈ acc.map Prod.fst ∨ k ∈ keys := by
  induction keys generalizing acc with
  | nil => simp
  | cons key rest ih =>
    simp only [List.foldl_cons, ih, bump_mem_keys, List.mem_cons]
    tauto

theorem countByKey_sum (keys : List κ) :
    ((countByKey keys).map Prod.snd).sum = keys.length := by
  simpa [lookupCount] using foldl_bump_sumCounts keys []

theorem countByKey_keys_nodup (keys : List κ) : ((countByKey keys).map Prod.fst).Nodup :=
  foldl_bump_keys_nodup keys [] (by simp)

theorem countByKey_mem_keys (keys : List κ) (k : κ) :
    k ∈ (countByKey keys).map Prod.fst ↔ k ∈ keys := by
  simpa using foldl_bump_mem_keys keys [] k

theorem countByKey_lookupCount (keys : List κ) (k : κ) :
    lookupCount (countByKey keys) k = keys.count k := by
  simpa [lookupCount] using foldl_bump_lookupCount keys [] k

/-- In an association list whose keys are distinct, a member's stored count
is its `lookupCount`. -/
theorem lookupCount_of_mem (acc : List (κ × Nat)) (k : κ) (c : Nat)
    (hnd : (acc.map Prod.fst).Nodup) (hm : (k, c) ∈ acc) : lookupCount acc k = c := by
  induction acc with
  | nil => cases hm
  | cons e rest ih =>
    obtain ⟨k0, c0⟩ := e
    simp only [List.map_cons, List.nodup_cons] at hnd
    rcases List.mem_cons.mp hm with he | hm'
    · have h1 : k = k0 := congrArg Prod.fst he
      have h2 : c = c0 := congrArg Prod.snd he
      subst h1
      subst h2
      have : (rest.filter fun e => decide (e.1 = k)) = [] := by
        rw [List.filter_eq_nil_iff]
        intro e hme
        simp only [decide_eq_true_eq]
        intro hek
        exact hnd.1 (hek ▸ List.mem_map_of_mem Prod.fst hme)
      simp [lookupCount, this]
    · have hk : k ≠ k0 := by
        rintro rfl
        exact hnd.1 (List.mem_map_of_mem Prod.fst hm')
      simp only [lookupCount, List.filter_cons, decide_eq_true_eq, if_neg (Ne.symm hk ∘ Eq.symm)]
      have := ih hnd.2 hm'
      simpa [lookupCount, Ne.symm hk] using this

theorem countByKey_count_of_mem (keys : List κ) (k : κ) (c : Nat)
    (hm : (k, c) ∈ countByKey keys) : c = keys.count k := by
  rw [← countByKey_lookupCount keys k,
    lookupCount_of_mem _ _ _ (countByKey_keys_nodup keys) hm]

end Helpers

section GenericLemmas

/-- A single indicator summed over `List.range n` contributes exactly 1. -/
theorem sum_range_indicator (n k : Nat) (h : k < n) :
    ((List.range n).map fun i => if k = i then (1 : Nat) else 0).sum = 1 := by
  induction n with
  | zero => omega
  | succ m ih =>
    rw [List.range_succ, List.map_append, List.sum_append]
    rcases eq_or_ne k m with rfl | hk
    · have hz : ((List.range k).map fun i => if k = i then (1 : Nat) else 0).sum = 0 := by
        apply List.sum_eq_zero
        intro x hx
        rcases List.mem_map.mp hx with ⟨i, hi, rfl⟩
        have : k ≠ i := by
          intro he
          exact absurd (List.mem_range.mp hi) (by omega)
        simp [this]
      simp [hz]
    · have h' : k < m := by
        rcases Nat.lt_succ_iff_lt_or_eq.mp h with h' | h'
        · exact h'
        · exact absurd h' hk
      simp [ih h', hk]

/-- Partition counting: when a classifier lands every element of `l` below
`n`, summing the per-class counts over `List.range n` recovers `l.length`. -/
theorem sum_range_filter_length {α : Type} (l : List α) (f : α → Nat) (n : Nat)
    (h : ∀ a ∈ l, f a < n) :
    ((List.range n).map fun i => (l.filter fun a => decide (f a = i)).length).sum = l.length := by
  induction l with
  | nil => simp
  | cons a t ih =>
    have hstep : ∀ i : Nat, ((a :: t).filter fun x => decide (f x = i)).length
        = (t.filter fun x => decide (f x = i)).length + (if f a = i then 1 else 0) := by
      intro i
      by_cases hfa : f a = i <;> simp [List.filter_cons, hfa]
    simp only [hstep]
    rw [List.sum_map_add, ih fun x hx => h x (List.mem_cons_of_mem a hx),
      sum_range_indicator n (f a) (h a (List.mem_cons_self a t))]
    simp

/-- Every element bounds below the `foldl max` over a list (`Nat`). -/
theorem le_foldl_max (l : List Nat) (a : Nat) :
    a ≤ l.foldl max a ∧ ∀ x ∈ l, x ≤ l.foldl max a := by
  induction l generalizing a with
  | nil => simp
  | cons y t ih =>
    refine ⟨le_trans (le_max_left a y) (ih (max a y)).1, ?_⟩
    intro x hx
    rcases List.mem_cons.mp hx with rfl | hx'
    · exact le_trans (le_max_right a x) (ih (max a x)).1
    · exact (ih (max a y)).2 x hx'

/-- An upper bound on the seed and the elements bounds the `foldl max`
(`Int`). -/
theorem foldl_max_le_int (l : List Int) (a c : Int) (ha : a ≤ c)
    (h : ∀ x ∈ l, x ≤ c) : l.foldl max a ≤ c := by
  induction l generalizing a with
  | nil => simpa
  | cons y t ih =>
    exact ih (max a y) (max_le ha (h y (List.mem_cons_self y t)))
      fun x hx => h x (List.mem_cons_of_mem y hx)

/-- Sorting by a measure with `g a ≤ g b` yields a list pairwise ascending
in the measure. -/
theorem insertionSort_pairwise_le {α β : Type} [LinearOrder β] (g : α → β) (l : List α) :
    (List.insertionSort (fun a b => g a ≤ g b) l).Pairwise fun a b => g a ≤ g b := by
  haveI : IsTotal α fun a b => g a ≤ g b := ⟨fun a b => le_total (g a) (g b)⟩
  haveI : IsTrans α fun a b => g a ≤ g b := ⟨fun a b c hab hbc => le_trans hab hbc⟩
  exact List.sorted_insertionSort _ l

/-- Sorting by a measure with `g b ≤ g a` — the JS comparators
`(a, b) => b.metric - a.metric` — yields a list pairwise descending in the
measure. -/
theorem insertionSort_pairwise_ge {α β : Type} [LinearOrder β] (g : α → β) (l : List α) :
    (List.insertionSort (fun a b => g b ≤ g a) l).Pairwise fun a b => g b ≤ g a := by
  haveI : IsTotal α fun a b => g b ≤ g a := ⟨fun a b => le_total (g b) (g a)⟩
  haveI : IsTrans α fun a b => g b ≤ g a := ⟨fun a b c hab hbc => le_trans hbc hab⟩
  exact List.sorted_insertionSort _ l

/-- The length of a `filterMap` counts the inputs whose image is `some`. -/
theorem length_filterMap_isSome {α β : Type} (f : α → Option β) (l : List α) :
    (l.filterMap f).length = (l.filter fun a => (f a).isSome).length := by
  induction l with
  | nil => rfl
  | cons a t ih => cases hfa : f a <;> simp [List.filterMap_cons, List.filter_cons, hfa, ih]

end GenericLemmas

section HistogramLemmas

theorem binSizeUnit_pos (m : Int) : 0 < (binSizeUnit m).1 := by
  unfold binSizeUnit
  split_ifs <;> norm_num

theorem histBins_length (unit : String) (binSize : Nat) (durations : List Int) :
    (histBins unit binSize durations).length =
      ((durations.map fun d => binIndexOf binSize d * binSize).foldl max 0) / binSize + 1 := by
  simp [histBins]

theorem histBins_ne_nil (unit : String) (binSize : Nat) (durations : List Int) :
    histBins unit binSize durations ≠ [] := by
  intro h
  have := congrArg List.length h
  rw [histBins_length] at this
  simp at this

theorem histBins_sum (unit : String) (binSize : Nat) (durations : List Int)
    (hpos : 0 < binSize) :
    ((histBins unit binSize durations).map HistBin.count).sum = durations.length := by
  unfold histBins
  rw [List.map_map]
  apply sum_range_filter_length
  intro d hd
  have hmem : binIndexOf binSize d * binSize ∈
      durations.map fun x => binIndexOf binSize x * binSize :=
    List.mem_map_of_mem _ hd
  have hle := (le_foldl_max (durations.map fun x => binIndexOf binSize x * binSize) 0).2 _ hmem
  have := (Nat.le_div_iff_mul_le hpos).mpr hle
  omega

theorem foldl_add_count (l : List HistBin) (a : Nat) :
    l.foldl (fun s b => s + b.count) a = a + (l.map HistBin.count).sum := by
  induction l generalizing a with
  | nil => simp
  | cons b t ih => simp [ih]; omega

/-- Count conservation through `durationHistogramData`: every branch of the
histogram — zero-filled bins, the combined collapse, and the relabelled
single bin — preserves the total count, which is the duration count. -/
theorem durationHistogramData_sum (stats : DurationStats) :
    ((durationHistogramData stats).map HistBin.count).sum = stats.durations.length := by
  by_cases h0 : stats.durations = []
  · simp [durationHistogramData, h0]
  · unfold durationHistogramData
    rw [if_neg h0]
    dsimp only
    have hsum := histBins_sum (binSizeUnit (stats.durations.foldl max 0)).2
      (binSizeUnit (stats.durations.foldl max 0)).1 stats.durations
      (binSizeUnit_pos (stats.durations.foldl max 0))
    split_ifs with hc hlen
    · rw [List.map_singleton]
      rw [foldl_add_count]
      simpa using hsum
    · obtain ⟨b, rest, hb⟩ := List.exists_cons_of_ne_nil
        (histBins_ne_nil (binSizeUnit (stats.durations.foldl max 0)).2
          (binSizeUnit (stats.durations.foldl max 0)).1 stats.durations)
      rw [hb]
      dsimp only
      rw [← hsum, hb]
      rfl
    · exact hsum
end HistogramLemmas

/-- A normalized record with the given staff, action, duration, dates and
registration string, for concrete evaluations; the raw date strings are
irrelevant to every aggregation view. -/
def mkNormalized (id staff act reg : String) (cd ad : Option DateTime) (dd : Option Int) :
    NormalizedRecord :=
  { ID := id, CREATED_DATE := "", ACTION_DATE := "", REGISTRATION_DATE := reg,
    STAFF := staff, ACTION := act, REFERENCE := "", createdDateValid := cd,
    actionDateValid := ad, durationDays := dd, durationHours := none }

/-- C4: the histogram's bucket width is chosen from the maximum observed
duration — width 1 if max ≤ 1 (with the combined single-bucket collapse),
width 1 if max ≤ 14, width 7 if max ≤ 60, width 30 if max ≤ 365, otherwise
width 90 — and when every duration lies in {0, 1} the histogram collapses to
the single bucket labelled "0-1 day(s)" whose count is the total row count
(the number of durations). -/
theorem durationHistogram_binsize_collapse_spec :
    (∀ m : Int, (binSizeUnit m).1 =
      if m ≤ 1 then 1 else if m ≤ 14 then 1 else if m ≤ 60 then 7
      else if m ≤ 365 then 30 else 90)
    ∧ ∀ stats : DurationStats, stats.durations ≠ [] →
        (∀ d ∈ stats.durations, d = 0 ∨ d = 1) →
        durationHistogramData stats =
          [{ range := "0-1 day(s)", count := stats.durations.length }] := by
  constructor
  · intro m
    unfold binSizeUnit
    split_ifs <;> rfl
  · intro stats hne hd
    have hmax : stats.durations.foldl max 0 ≤ 1 :=
      foldl_max_le_int _ 0 1 (by norm_num)
        (fun x hx => by rcases hd x hx with rfl | rfl <;> norm_num)
    have hbsu : binSizeUnit (stats.durations.foldl max 0) = (1, "day(s) (0-1)") := by
      unfold binSizeUnit
      rw [if_pos hmax]
    have hsum := histBins_sum (binSizeUnit (stats.durations.foldl max 0)).2
      (binSizeUnit (stats.durations.foldl max 0)).1 stats.durations
      (binSizeUnit_pos (stats.durations.foldl max 0))
    unfold durationHistogramData
    rw [if_neg hne]
    dsimp only
    rw [if_pos ⟨hmax, by rw [hbsu]⟩]
    split_ifs with hlen
    · rw [foldl_add_count]
      rw [show (0 + ((histBins (binSizeUnit (stats.durations.foldl max 0)).2
          (binSizeUnit (stats.durations.foldl max 0)).1 stats.durations).map
            HistBin.count).sum) = stats.durations.length by omega]
    · obtain ⟨b, rest, hb⟩ := List.exists_cons_of_ne_nil
        (histBins_ne_nil (binSizeUnit (stats.durations.foldl max 0)).2
          (binSizeUnit (stats.durations.foldl max 0)).1 stats.durations)
      rw [hb]
      dsimp only
      have hrest : rest = [] := by
        have hlb := congrArg List.length hb
        rw [hb] at hlen
        simp only [List.length_cons] at hlen ⊢
        have : rest.length = 0 := by omega
        exact List.length_eq_zero.mp this
      subst hrest
      have hbc : b.count = stats.durations.length := by
        rw [hb] at hsum
        simpa using hsum
      rw [hbc]

/-- Witness for the C4 theorem at a concrete input: durations `[0, 1, 0]`
collapse to the single `0-1 day(s)` bucket with count 3. -/
theorem durationHistogram_binsize_collapse_spec_witness :
    durationHistogramData (durationStats
        [mkNormalized "1" "" "" "" none none (some 0),
         mkNormalized "2" "" "" "" none none (some 1),
         mkNormalized "3" "" "" "" none none (some 0)]) =
      [{ range := "0-1 day(s)", count := 3 }] := by
  have h := durationHistogram_binsize_collapse_spec.2
    (durationStats
      [mkNormalized "1" "" "" "" none none (some 0),
       mkNormalized "2" "" "" "" none none (some 1),
       mkNormalized "3" "" "" "" none none (some 0)])
    (by decide) (by decide)
  rw [h]
  decide

/-- C10: count conservation in the histogram — for a non-empty duration
sequence the counts over all buckets (zero-filled gaps and the collapse case
included) sum to the number of durations in `durationStats.durations`. -/
theorem durationHistogram_count_conservation (records : List NormalizedRecord)
    (h : (durationStats records).durations ≠ []) :
    ((durationHistogramData (durationStats records)).map HistBin.count).sum
      = (durationStats records).durations.length :=
  durationHistogramData_sum (durationStats records)

/-- Witness for the C10 theorem at a concrete input: durations `[3, 5, 3, 0]`
spread over six width-1 buckets whose counts sum to 4. -/
theorem durationHistogram_count_conservation_witness :
    (durationStats [mkNormalized "1" "" "" "" none none (some 3),
        mkNormalized "2" "" "" "" none none (some 5),
        mkNormalized "3" "" "" "" none none (some 3),
        mkNormalized "4" "" "" "" none none (some 0)]).durations ≠ [] ∧
    ((durationHistogramData (durationStats [mkNormalized "1" "" "" "" none none (some 3),
        mkNormalized "2" "" "" "" none none (some 5),
        mkNormalized "3" "" "" "" none none (some 3),
        mkNormalized "4" "" "" "" none none (some 0)])).map HistBin.count).sum
      = (durationStats [mkNormalized "1" "" "" "" none none (some 3),
        mkNormalized "2" "" "" "" none none (some 5),
        mkNormalized "3" "" "" "" none none (some 3),
        mkNormalized "4" "" "" "" none none (some 0)]).durations.length :=
  ⟨by decide, durationHistogram_count_conservation _ (by decide)⟩

/-- C2: aggregation is a total function (it is a Lean function into
`AggregationResult`, defined for every record list with no error channel),
and on the empty record list every derived view is its documented empty/zero
form: empty sequences for the series, histogram, staff rankings and action
counts, all-zero `durationStats` with an empty sequence, and zero
`registrationToActionStats`. -/
theorem aggregate_empty_spec :
    aggregate [] =
      { monthlySeries := [],
        durationStats := { average := 0, median := 0, min := 0, max := 0, durations := [] },
        durationHistogram := [],
        staffActivity := { durations := [], counts := [] },
        actionTypeCounts := [],
        registrationToActionStats := { average := 0, median := 0, data := [] } } := rfl

/-- The C1 counterexample row: `ID` and `ACTION_DATE` present and valid,
`CREATED_DATE` present but unparseable. -/
def badCreatedRow : RawRow :=
  { ID := "1", CREATED_DATE := "garbage", ACTION_DATE := "2024.01.05 10:00:00",
    REGISTRATION_DATE := "", STAFF := "", ACTION := "", REFERENCE := "" }

/-- C1 counterexample: a row whose `CREATED_DATE` does not parse while `ID`
and `ACTION_DATE` are present and valid is NOT dropped — the retention filter
tests the raw strings for non-emptiness, so the row survives into the
normalized set with `createdDateValid = null`. -/
theorem processRows_keeps_unparseable_created_date :
    parseDate badCreatedRow.CREATED_DATE = none
    ∧ (parseDate badCreatedRow.ACTION_DATE).isSome = true
    ∧ badCreatedRow.ID ≠ ""
    ∧ (processRows [badCreatedRow]).length = 1
    ∧ (processRows [badCreatedRow]).map NormalizedRecord.createdDateValid = [none] := by
  decide

/-- C1 amended: a record is retained by ingestion exactly when the raw `ID`,
`CREATED_DATE` and `ACTION_DATE` strings are all non-empty — independently of
whether the dates parse; every retained record has those three raw fields
non-empty, and every input row with the three raw fields non-empty appears
(normalized) in the output, its `createdDateValid` being `null` when the
text does not parse. -/
theorem processRows_retention_spec (rows : List RawRow) :
    (∀ r ∈ processRows rows, r.ID ≠ "" ∧ r.CREATED_DATE ≠ "" ∧ r.ACTION_DATE ≠ "")
    ∧ ∀ row ∈ rows, row.ID ≠ "" → row.CREATED_DATE ≠ "" → row.ACTION_DATE ≠ "" →
        normalizeRow row ∈ processRows rows := by
  constructor
  · intro r hr
    have := (List.mem_filter.mp hr).2
    simpa [decide_eq_true_iff] using this
  · intro row hrow h1 h2 h3
    apply List.mem_filter.mpr
    refine ⟨List.mem_map_of_mem normalizeRow hrow, ?_⟩
    simp only [decide_eq_true_iff]
    exact ⟨by simpa [normalizeRow] using h1, by simpa [normalizeRow] using h2,
      by simpa [normalizeRow] using h3⟩

/-- Witness for the C1 amended theorem at a concrete input: the unparseable
row is retained, and every retained record has non-empty raw fields. -/
theorem processRows_retention_spec_witness :
    normalizeRow badCreatedRow ∈ processRows [badCreatedRow] :=
  (processRows_retention_spec [badCreatedRow]).2 badCreatedRow
    (List.mem_cons_self badCreatedRow []) (by decide) (by decide) (by decide)

/-- C9: ingestion and aggregation are deterministic with no hidden state
across runs — ingesting a file, clearing, and re-ingesting a byte-identical
file (hence the same `Papa.parse` outcome) reproduces the exact same
component state, and therefore an identical `AggregationResult` with every
derived view equal. -/
theorem ingest_roundtrip_deterministic (s : ComponentState) (fileName : String)
    (results : ParseOutcome) :
    ingestFile fileName results (handleClearData (ingestFile fileName results s))
        = ingestFile fileName results s
    ∧ aggregate (ingestFile fileName results
          (handleClearData (ingestFile fileName results s))).parsedData
        = aggregate (ingestFile fileName results s).parsedData := by
  have hstart : ∀ s' : ComponentState, parseCsvStart fileName s' =
      { parsedData := [], fileName := fileName, loading := true, error := none } := by
    intro s'
    rfl
  have hconst : ingestFile fileName results (handleClearData (ingestFile fileName results s))
      = ingestFile fileName results s := by
    unfold ingestFile
    rw [hstart, hstart]
  exact ⟨hconst, by rw [hconst]⟩

theorem takeWhile_append_of_all {α : Type} (p : α → Bool) (l₁ l₂ : List α) (c : α)
    (h : ∀ x ∈ l₁, p x = true) (hc : p c = false) :
    (l₁ ++ c :: l₂).takeWhile p = l₁ := by
  induction l₁ with
  | nil => simp [List.takeWhile_cons, hc]
  | cons a t ih =>
    simp only [List.cons_append, List.takeWhile_cons, h a (List.mem_cons_self a t), if_pos]
    rw [ih fun x hx => h x (List.mem_cons_of_mem a hx)]

theorem takeWhile_all {α : Type} (p : α → Bool) (l : List α)
    (h : ∀ x ∈ l, p x = true) : l.takeWhile p = l := by
  induction l with
  | nil => rfl
  | cons a t ih =>
    simp only [List.takeWhile_cons, h a (List.mem_cons_self a t), if_pos]
    rw [ih fun x hx => h x (List.mem_cons_of_mem a hx)]

/-- The claim's "exact format `yyyy.MM.dd HH:mm:ss`", read literally as the
zero-padded shape: exactly four digits, a dot, two digits, a dot, two
digits, a space, two digits, a colon, two digits, a colon, two digits, and
nothing else. Written from the claim's words, to compare with the date-fns
parser (`parseDateFormat`) the program actually uses. -/
def isExactPaddedFormat (cs : List Char) : Bool :=
  match cs with
  | [y1, y2, y3, y4, p1, a1, a2, p2, b1, b2, sp, h1, h2, c1, n1, n2, c2, s1, s2] =>
    y1.isDigit && y2.isDigit && y3.isDigit && y4.isDigit && p1 == '.' &&
    a1.isDigit && a2.isDigit && p2 == '.' && b1.isDigit && b2.isDigit && sp == ' ' &&
    h1.isDigit && h2.isDigit && c1 == ':' && n1.isDigit && n2.isDigit && c2 == ':' &&
    s1.isDigit && s2.isDigit
  | _ => false

/-- C8 counterexample: the program's parsing of the date fields is lenient,
not exact — date-fns numeric tokens match one up to their width of digits
and trailing whitespace is tolerated — so strings that FAIL the exact padded
`yyyy.MM.dd HH:mm:ss` shape, such as `"2024.1.5 0:0:0"` and a padded
timestamp with a trailing space, still parse to a valid date instead of
yielding null. -/
theorem parseDate_lenient_counterexample :
    isExactPaddedFormat "2024.1.5 0:0:0".toList = false
    ∧ parseDate "2024.1.5 0:0:0" = some ⟨2024, 1, 5, 0, 0, 0⟩
    ∧ isExactPaddedFormat "2024.01.05 10:00:00 ".toList = false
    ∧ parseDate "2024.01.05 10:00:00 " = some ⟨2024, 1, 5, 10, 0, 0⟩ := by
  decide

/-- C8 (amended): date-field parsing is total — it is a Lean function into an
`Option`, with no exception channel (the source's `catch` returns `null`). A
missing/empty field yields `null`; for any other string the parser first
strips everything from the first comma on and then applies the date-fns
parser for the format `yyyy.MM.dd HH:mm:ss`, which is lenient rather than
exact: numeric tokens match one up to their width of digits and trailing
whitespace is tolerated. A comma-delimited suffix appended to a comma-free
string never changes the result, any successfully parsed field is a
calendar-valid datetime, and any string the lenient format parser rejects
yields `null` for the field. -/
theorem parseDate_spec :
    parseDate "" = none
    ∧ (∀ s : String, s ≠ "" →
        parseDate s = parseDateFormat (s.toList.takeWhile fun c => c ≠ ','))
    ∧ (∀ s t : String, s ≠ "" → (∀ c ∈ s.toList, c ≠ ',') →
        parseDate (s ++ "," ++ t) = parseDate s)
    ∧ (∀ cs : List Char, ∀ d : DateTime, parseDateFormat cs = some d →
        1 ≤ d.year ∧ 1 ≤ d.month ∧ d.month ≤ 12 ∧ 1 ≤ d.day
          ∧ d.day ≤ daysInMonth d.year d.month
          ∧ d.hour ≤ 23 ∧ d.minute ≤ 59 ∧ d.second ≤ 59) := by
  refine ⟨rfl, fun s hs => by simp [parseDate, hs], ?_, ?_⟩
  · intro s t hs hnc
    have hne : s ++ "," ++ t ≠ "" := by
      intro h
      have hlen := congrArg String.length h
      rw [String.length_append, String.length_append,
        show ("," : String).length = 1 from rfl, show ("" : String).length = 0 from rfl] at hlen
      omega
    have h1 : (s ++ "," ++ t).toList = s.toList ++ ',' :: t.toList := by
      show s.toList ++ [','] ++ t.toList = s.toList ++ ',' :: t.toList
      simp
    unfold parseDate
    rw [if_neg hne, if_neg hs, h1,
      takeWhile_append_of_all _ _ _ _ (fun x hx => by simpa using hnc x hx) (by simp),
      takeWhile_all _ _ (fun x hx => by simpa using hnc x hx)]
  · intro cs d h
    unfold parseDateFormat at h
    repeat' split at h
    all_goals try exact Option.noConfusion h
    rename_i hcond
    cases h
    obtain ⟨-, hy, hm1, hm2, hd1, hd2, hh, hmi, hse⟩ := hcond
    exact ⟨hy, hm1, hm2, hd1, hd2, hh, hmi, hse⟩

/-- Witness for the C8 amended theorem at concrete inputs: a trailing
comma-delimited suffix does not change the parse of an unpadded timestamp,
and its successful parse is calendar-valid. -/
theorem parseDate_spec_witness :
    parseDate ("2024.1.5 0:0:0" ++ "," ++ "junk") = parseDate "2024.1.5 0:0:0"
    ∧ 1 ≤ (⟨2024, 1, 5, 0, 0, 0⟩ : DateTime).year :=
  ⟨parseDate_spec.2.2.1 "2024.1.5 0:0:0" "junk" (by decide) (by decide),
   (parseDate_spec.2.2.2 "2024.1.5 0:0:0".toList ⟨2024, 1, 5, 0, 0, 0⟩ (by decide)).1⟩

/-- The spec's arithmetic mean of a duration list. -/
def specAverage (l : List Int) : Rat := (l.sum : Rat) / (l.length : Rat)

/-- The spec's median of an (ascending-sorted) duration list: the middle
element for an odd count, the mean of the two middle elements for an even
count. -/
def specMedian (l : List Int) : Rat :=
  if l.length % 2 = 1 then (Int.cast (l.getD (l.length / 2) 0) : Rat)
  else (Int.cast (l.getD (l.length / 2 - 1) 0 + l.getD (l.length / 2) 0) : Rat) / 2

/-- The spec's duration sequence: the records' `durationDays` values filtered
to non-null and `≥ 0`, sorted ascending. -/
def specDurations (records : List NormalizedRecord) : List Int :=
  List.insertionSort (fun a b : Int => a ≤ b)
    ((records.filterMap NormalizedRecord.durationDays).filter fun d => decide (0 ≤ d))

theorem durations_pipeline (records : List NormalizedRecord) :
    ((records.map fun row => row.durationDays).filterMap fun d =>
      match d with
      | some v => if 0 ≤ v then some v else none
      | none => none) =
    (records.filterMap NormalizedRecord.durationDays).filter fun d => decide (0 ≤ d) := by
  induction records with
  | nil => rfl
  | cons r t ih =>
    rw [List.map_cons, List.filterMap_cons, List.filterMap_cons]
    cases hd : r.durationDays with
    | none => simpa using ih
    | some v =>
      by_cases h : (0 : Int) ≤ v
      · simp only [if_pos h, List.filter_cons, decide_eq_true_eq, h, decide_True, if_pos, ih]
      · simp only [if_neg h, List.filter_cons, decide_eq_true_eq, h, decide_False, if_neg, ih]
        simp [h, ih]

theorem insertionSort_int_pairwise (l : List Int) :
    (List.insertionSort (fun a b : Int => a ≤ b) l).Pairwise fun a b : Int => a ≤ b := by
  haveI : IsTotal Int fun a b : Int => a ≤ b := ⟨le_total⟩
  haveI : IsTrans Int fun a b : Int => a ≤ b := ⟨fun a b c hab hbc => le_trans hab hbc⟩
  exact List.sorted_insertionSort _ l

theorem some_getLastD_of_ne_nil {α : Type} (l : List α) (d : α) (h : l ≠ []) :
    some (l.getLastD d) = l.getLast? := by
  rw [List.getLastD_eq_getLast?]
  obtain ⟨y, hy⟩ := Option.isSome_iff_exists.mp (List.getLast?_isSome.mpr h)
  rw [hy]
  rfl

/-- A record list carrying the durations `[1, 2, 3]`. -/
def sampleDur3 : List NormalizedRecord :=
  [mkNormalized "1" "" "" "" none none (some 1),
   mkNormalized "2" "" "" "" none none (some 2),
   mkNormalized "3" "" "" "" none none (some 3)]

/-- A record list carrying the durations `[1, 2, 3, 4]`. -/
def sampleDur4 : List NormalizedRecord :=
  [mkNormalized "1" "" "" "" none none (some 1),
   mkNormalized "2" "" "" "" none none (some 2),
   mkNormalized "3" "" "" "" none none (some 3),
   mkNormalized "4" "" "" "" none none (some 4)]

/-- C3: `durationStats` is computed over the records' `durationDays` filtered
to non-null and `≥ 0`, sorted ascending; `average` is the arithmetic mean,
`median` the middle element (odd count) or the mean of the two middle
elements (even count) — so durations `[1,2,3]` give median 2 and `[1,2,3,4]`
give median 2.5 — `min`/`max` are the first/last elements of the sorted
sequence, and an empty filtered set yields all-zero stats with an empty
sequence. -/
theorem durationStats_spec :
    (∀ records : List NormalizedRecord,
      (durationStats records).durations = specDurations records
      ∧ (durationStats records).durations.Pairwise (fun a b : Int => a ≤ b)
      ∧ ((durationStats records).durations = [] →
          durationStats records =
            { average := 0, median := 0, min := 0, max := 0, durations := [] })
      ∧ ((durationStats records).durations ≠ [] →
          (durationStats records).average = specAverage (durationStats records).durations
          ∧ (durationStats records).median = specMedian (durationStats records).durations
          ∧ some (durationStats records).min = (durationStats records).durations.head?
          ∧ some (durationStats records).max = (durationStats records).durations.getLast?))
    ∧ (durationStats sampleDur3).median = 2
    ∧ (durationStats sampleDur4).median = 5 / 2 := by
  have main : ∀ records : List NormalizedRecord,
      (durationStats records).durations = specDurations records
      ∧ (durationStats records).durations.Pairwise (fun a b : Int => a ≤ b)
      ∧ ((durationStats records).durations = [] →
          durationStats records =
            { average := 0, median := 0, min := 0, max := 0, durations := [] })
      ∧ ((durationStats records).durations ≠ [] →
          (durationStats records).average = specAverage (durationStats records).durations
          ∧ (durationStats records).median = specMedian (durationStats records).durations
          ∧ some (durationStats records).min = (durationStats records).durations.head?
          ∧ some (durationStats records).max = (durationStats records).durations.getLast?) := by
    intro records
    by_cases hrec : records = []
    · subst hrec
      refine ⟨rfl, by simp [durationStats], fun _ => rfl, fun h => absurd rfl h⟩
    · unfold durationStats
      rw [if_neg hrec]
      dsimp only
      rw [durations_pipeline]
      by_cases hA : List.filter (fun d => decide (0 ≤ d))
          (List.filterMap NormalizedRecord.durationDays records) = []
      · rw [if_pos hA]
        refine ⟨?_, by simp, fun _ => rfl, fun h => absurd rfl h⟩
        show ([] : List Int) = specDurations records
        unfold specDurations
        rw [hA]
        rfl
      · rw [if_neg hA]
        set L := List.insertionSort (fun a b : Int => a ≤ b)
          (List.filter (fun d => decide (0 ≤ d))
            (List.filterMap NormalizedRecord.durationDays records)) with hL
        have hne : L ≠ [] := by
          intro hempty
          apply hA
          have hlen := congrArg List.length hempty
          rw [hL, (List.perm_insertionSort (fun a b : Int => a ≤ b) _).length_eq] at hlen
          exact List.length_eq_zero.mp hlen
        refine ⟨?_, ?_, fun hempty => absurd hempty hne, fun _ => ⟨rfl, ?_, ?_, ?_⟩⟩
        · show L = specDurations records
          unfold specDurations
          exact hL
        · show L.Pairwise fun a b : Int => a ≤ b
          rw [hL]
          exact insertionSort_int_pairwise _
        · show (if L.length % 2 ≠ 0 then (Int.cast (L.getD (L.length / 2) 0) : Rat)
              else (Int.cast (L.getD (L.length / 2 - 1) 0 + L.getD (L.length / 2) 0) : Rat) / 2)
            = specMedian L
          unfold specMedian
          rcases Nat.mod_two_eq_zero_or_one L.length with hpar | hpar
          · have h1 : ¬(L.length % 2 ≠ 0) := by omega
            have h2 : ¬(L.length % 2 = 1) := by omega
            rw [if_neg h1, if_neg h2]
          · have h1 : L.length % 2 ≠ 0 := by omega
            rw [if_pos h1, if_pos hpar]
        · show some (L.headD 0) = L.head?
          obtain ⟨x, xs, hx⟩ := List.exists_cons_of_ne_nil hne
          rw [hx]
          rfl
        · show some (L.getLastD 0) = L.getLast?
          exact some_getLastD_of_ne_nil _ _ hne
  refine ⟨main, ?_, ?_⟩
  · have h := ((main sampleDur3).2.2.2 (by decide)).2.1
    rw [h, show (durationStats sampleDur3).durations = [1, 2, 3] from by decide]
    norm_num [specMedian]
  · have h := ((main sampleDur4).2.2.2 (by decide)).2.1
    rw [h, show (durationStats sampleDur4).durations = [1, 2, 3, 4] from by decide]
    norm_num [specMedian]

/-- Witness for the C3 theorem at a concrete input: the `[1,2,3,4]` sample has
a non-empty duration sequence, whose average is its arithmetic mean. -/
theorem durationStats_spec_witness :
    (durationStats sampleDur4).durations ≠ [] ∧
    (durationStats sampleDur4).average = specAverage (durationStats sampleDur4).durations :=
  ⟨by decide, ((durationStats_spec.1 sampleDur4).2.2.2 (by decide)).1⟩

/-- C6: `monthlySeries` has one entry per calendar month containing at least
one record with a valid `createdAt` (keys are distinct and a month appears
exactly when some record maps to it), is sorted ascending by month key, and
its counts sum to the number of records with a non-null `createdAt`. -/
theorem monthlySeries_spec (records : List NormalizedRecord) :
    ((monthlyCreations records).Pairwise fun a b => a.month ≤ b.month)
    ∧ ((monthlyCreations records).map MonthCount.month).Nodup
    ∧ ((monthlyCreations records).map MonthCount.count).sum
        = (records.filter fun r => r.createdDateValid.isSome).length
    ∧ ∀ m : Nat, m ∈ (monthlyCreations records).map MonthCount.month ↔
        ∃ r ∈ records, r.createdDateValid.map monthKey = some m := by
  by_cases hrec : records = []
  · subst hrec
    refine ⟨by simp [monthlyCreations], by simp [monthlyCreations], by simp [monthlyCreations], ?_⟩
    intro m
    simp [monthlyCreations]
  · unfold monthlyCreations
    rw [if_neg hrec]
    dsimp only
    set keys := records.filterMap (fun row => row.createdDateValid.map monthKey) with hkeys
    set M := (countByKey keys).map (fun e => { month := e.1, count := e.2 : MonthCount })
      with hM
    have hperm : (List.insertionSort (fun a b => a.month ≤ b.month) M).Perm M :=
      List.perm_insertionSort _ M
    have hmapmonth : M.map MonthCount.month = (countByKey keys).map Prod.fst := by
      rw [hM, List.map_map]
      rfl
    have hmapcount : M.map MonthCount.count = (countByKey keys).map Prod.snd := by
      rw [hM, List.map_map]
      rfl
    refine ⟨insertionSort_pairwise_le MonthCount.month M, ?_, ?_, ?_⟩
    · have h1 : ((countByKey keys).map Prod.fst).Nodup := countByKey_keys_nodup keys
      rw [← hmapmonth] at h1
      exact ((hperm.map MonthCount.month).symm).nodup h1
    · rw [(hperm.map MonthCount.count).sum_eq, hmapcount, countByKey_sum keys, hkeys,
        length_filterMap_isSome]
      apply congrArg List.length
      apply List.filter_congr
      intro r _
      rw [Option.isSome_map']
    · intro m
      rw [List.mem_map]
      constructor
      · rintro ⟨e, he, rfl⟩
        have h2 : e.month ∈ M.map MonthCount.month :=
          List.mem_map_of_mem MonthCount.month (hperm.mem_iff.mp he)
        rw [hmapmonth, countByKey_mem_keys, hkeys] at h2
        exact List.mem_filterMap.mp h2
      · intro hex
        have hm : m ∈ keys := by
          rw [hkeys]
          exact List.mem_filterMap.mpr hex
        rw [← countByKey_mem_keys, ← hmapmonth] at hm
        obtain ⟨e, he, hme⟩ := List.mem_map.mp hm
        exact ⟨e, hperm.mem_iff.mpr he, hme⟩

section StaffLemmas

/-- The count stored for a staff key in the `staffData` association list
(position `.2.2` of an entry), summed over all copies of the key so that the
accumulation lemmas need no distinctness hypotheses. -/
def lookupStaff (acc : List (String × Int × Nat)) (s : String) : Nat :=
  ((acc.filter fun e => decide (e.1 = s)).map fun e => e.2.2).sum

theorem lookupStaff_cons (k : String) (v : Int × Nat) (l : List (String × Int × Nat))
    (s : String) :
    lookupStaff ((k, v) :: l) s = (if k = s then v.2 else 0) + lookupStaff l s := by
  by_cases h : k = s <;> simp [lookupStaff, h]

theorem bumpStaff_lookup (acc : List (String × Int × Nat)) (st : String) (d : Int)
    (s : String) :
    lookupStaff (bumpStaff acc st d) s = lookupStaff acc s + (if s = st then 1 else 0) := by
  induction acc with
  | nil =>
    by_cases h : s = st <;> simp [bumpStaff, lookupStaff, h, eq_comm]
  | cons e rest ih =>
    obtain ⟨k0, v0⟩ := e
    show lookupStaff (if st = k0 then (k0, v0.1 + d, v0.2 + 1) :: rest
        else (k0, v0) :: bumpStaff rest st d) s
      = lookupStaff ((k0, v0) :: rest) s + if s = st then 1 else 0
    by_cases hk : st = k0
    · rw [if_pos hk, lookupStaff_cons, lookupStaff_cons]
      split_ifs with h1 h2 h3
      · omega
      · exact absurd (hk.trans h1).symm h2
      · exact absurd (h3.trans hk).symm h1
      · omega
    · rw [if_neg hk, lookupStaff_cons, lookupStaff_cons, ih]
      omega

theorem bumpStaff_keys (acc : List (String × Int × Nat)) (st : String) (d : Int) :
    (bumpStaff acc st d).map Prod.fst =
      if st ∈ acc.map Prod.fst then acc.map Prod.fst else acc.map Prod.fst ++ [st] := by
  induction acc with
  | nil => simp [bumpStaff]
  | cons e rest ih =>
    obtain ⟨k0, v0⟩ := e
    show ((if st = k0 then (k0, v0.1 + d, v0.2 + 1) :: rest
        else (k0, v0) :: bumpStaff rest st d)).map Prod.fst = _
    by_cases hk : st = k0
    · simp [hk]
    · by_cases hm : st ∈ rest.map Prod.fst <;> simp [hk, ih, hm, Ne.symm hk]

theorem bumpStaff_keys_nodup (acc : List (String × Int × Nat)) (st : String) (d : Int)
    (h : (acc.map Prod.fst).Nodup) : ((bumpStaff acc st d).map Prod.fst).Nodup := by
  rw [bumpStaff_keys]
  by_cases hm : st ∈ acc.map Prod.fst
  · simpa [hm] using h
  · simp only [hm, if_false, List.nodup_append]
    refine ⟨h, List.nodup_singleton st, ?_⟩
    intro a ha hb
    rw [List.mem_singleton] at hb
    subst hb
    exact hm ha

theorem bumpStaff_mem_keys (acc : List (String × Int × Nat)) (st : String) (d : Int)
    (s : String) :
    s ∈ (bumpStaff acc st d).map Prod.fst ↔ s ∈ acc.map Prod.fst ∨ s = st := by
  rw [bumpStaff_keys]
  by_cases hm : st ∈ acc.map Prod.fst
  · simp only [hm, if_true]
    constructor
    · exact Or.inl
    · rintro (h | rfl) <;> [exact h; exact hm]
  · simp [hm, or_comm]

theorem lookupStaff_of_mem (acc : List (String × Int × Nat)) (s : String) (tot : Int)
    (c : Nat) (hnd : (acc.map Prod.fst).Nodup) (hm : (s, tot, c) ∈ acc) :
    lookupStaff acc s = c := by
  induction acc with
  | nil => cases hm
  | cons e rest ih =>
    obtain ⟨k0, v0⟩ := e
    simp only [List.map_cons, List.nodup_cons] at hnd
    rcases List.mem_cons.mp hm with he | hm'
    · have h1 : s = k0 := congrArg Prod.fst he
      have h2 : (tot, c) = v0 := congrArg Prod.snd he
      subst h1
      have hfil : (rest.filter fun e => decide (e.1 = s)) = [] := by
        rw [List.filter_eq_nil_iff]
        intro e hme
        simp only [decide_eq_true_eq]
        intro hek
        exact hnd.1 (hek ▸ List.mem_map_of_mem Prod.fst hme)
      rw [lookupStaff, List.filter_cons]
      simp only [decide_True, if_pos]
      rw [hfil]
      simp [← h2]
    · have hk : s ≠ k0 := by
        rintro rfl
        exact hnd.1 (List.mem_map_of_mem Prod.fst hm')
      rw [lookupStaff_cons, if_neg (Ne.symm hk)]
      simpa using ih hnd.2 hm'

theorem staffFoldAux_lookup (records : List NormalizedRecord)
    (acc : List (String × Int × Nat)) (s : String) :
    lookupStaff (records.foldl
      (fun acc r => if qualifiesStaff r then bumpStaff acc r.STAFF (r.durationDays.getD 0)
        else acc) acc) s
      = lookupStaff acc s
        + (records.filter fun r => qualifiesStaff r && decide (r.STAFF = s)).length := by
  induction records generalizing acc with
  | nil => simp
  | cons r t ih =>
    rw [List.foldl_cons, ih, List.filter_cons]
    by_cases hq : qualifiesStaff r
    · rw [if_pos hq, bumpStaff_lookup]
      by_cases hsr : r.STAFF = s
      · have hp : (qualifiesStaff r && decide (r.STAFF = s)) = true := by simp [hq, hsr]
        rw [if_pos hp, if_pos hsr.symm, List.length_cons]
        omega
      · have hp : ¬((qualifiesStaff r && decide (r.STAFF = s)) = true) := by simp [hsr]
        rw [if_neg hp, if_neg fun h => hsr h.symm]
        omega
    · have hp : ¬((qualifiesStaff r && decide (r.STAFF = s)) = true) := by simp [hq]
      rw [if_neg hq, if_neg hp]

theorem staffFoldAux_keys_nodup (records : List NormalizedRecord)
    (acc : List (String × Int × Nat)) (h : (acc.map Prod.fst).Nodup) :
    ((records.foldl
      (fun acc r => if qualifiesStaff r then bumpStaff acc r.STAFF (r.durationDays.getD 0)
        else acc) acc).map Prod.fst).Nodup := by
  induction records generalizing acc with
  | nil => simpa
  | cons r t ih =>
    rw [List.foldl_cons]
    by_cases hq : qualifiesStaff r
    · rw [if_pos hq]
      exact ih _ (bumpStaff_keys_nodup _ _ _ h)
    · rw [if_neg hq]
      exact ih _ h

theorem staffFoldAux_mem_keys (records : List NormalizedRecord)
    (acc : List (String × Int × Nat)) (s : String) :
    s ∈ ((records.foldl
      (fun acc r => if qualifiesStaff r then bumpStaff acc r.STAFF (r.durationDays.getD 0)
        else acc) acc).map Prod.fst)
      ↔ s ∈ acc.map Prod.fst ∨ ∃ r ∈ records, qualifiesStaff r ∧ r.STAFF = s := by
  induction records generalizing acc with
  | nil => simp
  | cons r t ih =>
    rw [List.foldl_cons]
    by_cases hq : qualifiesStaff r
    · rw [if_pos hq, ih, bumpStaff_mem_keys]
      constructor
      · rintro ((h | rfl) | h)
        · exact Or.inl h
        · exact Or.inr ⟨r, List.mem_cons_self r t, hq, rfl⟩
        · obtain ⟨r', hr', hq', hs'⟩ := h
          exact Or.inr ⟨r', List.mem_cons_of_mem r hr', hq', hs'⟩
      · rintro (h | ⟨r', hr', hq', hs'⟩)
        · exact Or.inl (Or.inl h)
        · rcases List.mem_cons.mp hr' with rfl | hr''
          · exact Or.inl (Or.inr hs'.symm)
          · exact Or.inr ⟨r', hr'', hq', hs'⟩
    · rw [if_neg hq, ih]
      constructor
      · rintro (h | ⟨r', hr', hq', hs'⟩)
        · exact Or.inl h
        · exact Or.inr ⟨r', List.mem_cons_of_mem r hr', hq', hs'⟩
      · rintro (h | ⟨r', hr', hq', hs'⟩)
        · exact Or.inl h
        · rcases List.mem_cons.mp hr' with rfl | hr''
          · exact absurd hq' hq
          · exact Or.inr ⟨r', hr'', hq', hs'⟩

end StaffLemmas

/-- Staff "A" with one qualifying row (non-null duration) and one
non-qualifying row (null duration). -/
def staffSample : List NormalizedRecord :=
  [mkNormalized "1" "A" "" "" none none (some 2),
   mkNormalized "2" "A" "" "" none none none]

/-- C5 counterexample: `staffActivity` counts only rows with a truthy `STAFF`
AND a non-null `durationDays ≥ 0` — not the plain record count. Staff "A" has
two records but a reported count of 1, because the second record's
`durationDays` is null. -/
theorem staffActionCounts_plain_count_counterexample :
    (staffActivity staffSample).counts = [{ staff := "A", count := 1 }]
    ∧ (staffSample.filter fun r => decide (r.STAFF = "A")).length = 2 := by
  decide

/-- C5 amended: `staffActionCounts` contains one entry per distinct staff
value among the records that qualify for the accumulation (truthy `STAFF`
and non-null `durationDays ≥ 0`); each entry's count is the number of such
qualifying records with that staff — not the plain per-staff record count —
and the sequence is sorted descending by count. -/
theorem staffActionCounts_spec (records : List NormalizedRecord) :
    ((staffActivity records).counts.Pairwise fun a b => b.count ≤ a.count)
    ∧ ((staffActivity records).counts.map StaffCount.staff).Nodup
    ∧ (∀ e ∈ (staffActivity records).counts,
        e.count = (records.filter fun r =>
          qualifiesStaff r && decide (r.STAFF = e.staff)).length)
    ∧ ∀ s : String, s ∈ (staffActivity records).counts.map StaffCount.staff ↔
        ∃ r ∈ records, qualifiesStaff r ∧ r.STAFF = s := by
  by_cases hrec : records = []
  · subst hrec
    refine ⟨by simp [staffActivity], by simp [staffActivity], ?_, ?_⟩
    · intro e he
      simp [staffActivity] at he
    · intro s
      simp [staffActivity]
  · have hcounts : (staffActivity records).counts =
        List.insertionSort (fun a b => b.count ≤ a.count)
          ((staffFold records).map fun e => { staff := e.1, count := e.2.2 : StaffCount }) := by
      unfold staffActivity
      rw [if_neg hrec]
    rw [hcounts]
    set F := staffFold records with hF
    set M := F.map (fun e => { staff := e.1, count := e.2.2 : StaffCount }) with hM
    have hperm : (List.insertionSort (fun a b => b.count ≤ a.count) M).Perm M :=
      List.perm_insertionSort _ M
    have hfoldnodup : (F.map Prod.fst).Nodup := by
      rw [hF]
      exact staffFoldAux_keys_nodup records [] (by simp)
    have hmapstaff : M.map StaffCount.staff = F.map Prod.fst := by
      rw [hM, List.map_map]
      rfl
    refine ⟨insertionSort_pairwise_ge StaffCount.count M, ?_, ?_, ?_⟩
    · have h1 := hfoldnodup
      rw [← hmapstaff] at h1
      exact ((hperm.map StaffCount.staff).symm).nodup h1
    · intro e he
      have heM : e ∈ M := hperm.mem_iff.mp he
      obtain ⟨f, hf, hfe⟩ := List.mem_map.mp heM
      obtain ⟨s', tot', c'⟩ := f
      have hcount : lookupStaff F s' = c' := lookupStaff_of_mem F s' tot' c' hfoldnodup hf
      have hfold : lookupStaff F s' =
          (records.filter fun r => qualifiesStaff r && decide (r.STAFF = s')).length := by
        rw [hF]
        have := staffFoldAux_lookup records [] s'
        simpa [lookupStaff] using this
      rw [← hfe]
      dsimp only
      rw [← hcount, hfold]
    · intro s
      have h1 : s ∈ (List.insertionSort (fun a b => b.count ≤ a.count) M).map
          StaffCount.staff ↔ s ∈ M.map StaffCount.staff :=
        (hperm.map StaffCount.staff).mem_iff
      rw [h1, hmapstaff, hF]
      have := staffFoldAux_mem_keys records [] s
      simpa using this

/-- Witness for the C5 amended theorem at a concrete input: the single entry
for staff "A" counts exactly the qualifying records. -/
theorem staffActionCounts_spec_witness :
    ({ staff := "A", count := 1 } : StaffCount) ∈ (staffActivity staffSample).counts
    ∧ ({ staff := "A", count := 1 } : StaffCount).count
        = (staffSample.filter fun r => qualifiesStaff r &&
            decide (r.STAFF = ({ staff := "A", count := 1 } : StaffCount).staff)).length :=
  ⟨by decide, (staffActionCounts_spec staffSample).2.2.1 _ (by decide)⟩

theorem tdiv_day_neg (x : Int) (h : x ≤ -86400) : x.tdiv 86400 < 0 := by
  obtain ⟨n, hn⟩ := Int.eq_ofNat_of_zero_le (show (0 : Int) ≤ -x by omega)
  have h1 : (86400 : Nat) ≤ n := by omega
  have h2 : (1 : Int) ≤ Int.tdiv (n : Int) (86400 : Int) := by
    have hnat := (Nat.one_le_div_iff (a := n) (b := 86400) (by norm_num)).mpr h1
    calc (1 : Int) ≤ ((n / 86400 : Nat) : Int) := by exact_mod_cast hnat
    _ = Int.tdiv (n : Int) ((86400 : Nat) : Int) := Int.ofNat_tdiv n 86400
    _ = Int.tdiv (n : Int) (86400 : Int) := by norm_num
  have hx : x = -(n : Int) := by omega
  rw [hx, Int.neg_tdiv]
  omega

theorem tdiv_day_zero (x : Int) (h1 : -86400 < x) (h2 : x ≤ 0) : x.tdiv 86400 = 0 := by
  obtain ⟨n, hn⟩ := Int.eq_ofNat_of_zero_le (show (0 : Int) ≤ -x by omega)
  have hlt : (n : Int) < 86400 := by omega
  have hz : Int.tdiv (n : Int) (86400 : Int) = 0 :=
    Int.tdiv_eq_zero_of_lt (by positivity) hlt
  have hx : x = -(n : Int) := by omega
  rw [hx, Int.neg_tdiv, hz]
  rfl

/-- The spec's registration-to-action diff sequence: the non-negative
re-parsed diffs, sorted ascending. -/
def specRegDays (records : List NormalizedRecord) : List Int :=
  List.insertionSort (fun a b : Int => a ≤ b)
    ((records.filterMap regEntry).map RegEntry.regToActionDays)

/-- A record whose registration date re-parses and whose action is five full
days later. -/
def regSampleRec : NormalizedRecord :=
  mkNormalized "5" "" "" "2024.01.01 00:00:00" none (some ⟨2024, 1, 6, 0, 0, 0⟩) none

/-- A record whose registration date re-parses to ONE HOUR AFTER its
`actionAt`. -/
def regBadRec : NormalizedRecord :=
  mkNormalized "9" "" "" "2024.01.01 13:00:00" none (some ⟨2024, 1, 1, 12, 0, 0⟩) none

/-- C7 counterexample: a record whose `registeredAt` is after its `actionAt`
(here by one hour) does NOT contribute nothing — date-fns `differenceInDays`
truncates toward zero, so the diff is 0, which passes the `>= 0` filter, and
the record contributes an entry (diff 0) to the registration-to-action
statistics. -/
theorem regToAction_subday_counterexample :
    parseDate regBadRec.REGISTRATION_DATE = some ⟨2024, 1, 1, 13, 0, 0⟩
    ∧ regBadRec.actionDateValid = some ⟨2024, 1, 1, 12, 0, 0⟩
    ∧ toTimestamp ⟨2024, 1, 1, 12, 0, 0⟩ < toTimestamp ⟨2024, 1, 1, 13, 0, 0⟩
    ∧ (registrationToActionDuration [regSampleRec, regBadRec]).data
        = [{ id := "5", reference := "", regToActionDays := 5 },
           { id := "9", reference := "", regToActionDays := 0 }] := by
  decide

/-- C7 amended: `registrationToActionStats` re-parses the registration field
per record independently of the retention filter, diffs it in full days
(truncated toward zero) against `actionAt`, and retains only non-negative
diffs; a record whose `registeredAt` is at least one full day after its
`actionAt` contributes nothing, but one later by less than a day yields diff
0 and IS retained; average and median are computed over the retained diffs
exactly as in `durationStats`. -/
theorem regToAction_spec (records : List NormalizedRecord) :
    (registrationToActionDuration records).data = records.filterMap regEntry
    ∧ (∀ e ∈ (registrationToActionDuration records).data, 0 ≤ e.regToActionDays)
    ∧ (∀ r : NormalizedRecord, ∀ reg act : DateTime,
        parseDate r.REGISTRATION_DATE = some reg → r.actionDateValid = some act →
        toTimestamp act + 86400 ≤ toTimestamp reg → regEntry r = none)
    ∧ (∀ r : NormalizedRecord, ∀ reg act : DateTime,
        parseDate r.REGISTRATION_DATE = some reg → r.actionDateValid = some act →
        toTimestamp act < toTimestamp reg → toTimestamp reg < toTimestamp act + 86400 →
        regEntry r = some { id := r.ID, reference := r.REFERENCE, regToActionDays := 0 })
    ∧ ((registrationToActionDuration records).data ≠ [] →
        (registrationToActionDuration records).average = specAverage (specRegDays records)
        ∧ (registrationToActionDuration records).median = specMedian (specRegDays records)) := by
  have hnone : ∀ r : NormalizedRecord, ∀ reg act : DateTime,
      parseDate r.REGISTRATION_DATE = some reg → r.actionDateValid = some act →
      toTimestamp act + 86400 ≤ toTimestamp reg → regEntry r = none := by
    intro r reg act hreg hact hlate
    unfold regEntry
    rw [hreg, hact]
    dsimp only
    rw [if_neg]
    unfold differenceInDays
    intro hnonneg
    have := tdiv_day_neg (toTimestamp act - toTimestamp reg) (by omega)
    omega
  have hzero : ∀ r : NormalizedRecord, ∀ reg act : DateTime,
      parseDate r.REGISTRATION_DATE = some reg → r.actionDateValid = some act →
      toTimestamp act < toTimestamp reg → toTimestamp reg < toTimestamp act + 86400 →
      regEntry r = some { id := r.ID, reference := r.REFERENCE, regToActionDays := 0 } := by
    intro r reg act hreg hact hafter hclose
    unfold regEntry
    rw [hreg, hact]
    dsimp only
    have hdz : differenceInDays (toTimestamp act) (toTimestamp reg) = 0 := by
      unfold differenceInDays
      exact tdiv_day_zero (toTimestamp act - toTimestamp reg) (by omega) (by omega)
    rw [hdz, if_pos le_rfl]
  have hdata : (registrationToActionDuration records).data = records.filterMap regEntry := by
    unfold registrationToActionDuration
    by_cases hrec : records = []
    · rw [if_pos hrec, hrec]
      rfl
    · rw [if_neg hrec]
      dsimp only
      by_cases hA : records.filterMap regEntry = []
      · rw [if_pos hA, hA]
      · rw [if_neg hA]
  refine ⟨hdata, ?_, hnone, hzero, ?_⟩
  · intro e he
    rw [hdata] at he
    obtain ⟨r, _, hre⟩ := List.mem_filterMap.mp he
    unfold regEntry at hre
    rcases hreg : parseDate r.REGISTRATION_DATE with _ | reg
    · rw [hreg] at hre
      cases hre
    · rcases hact : r.actionDateValid with _ | act
      · rw [hreg, hact] at hre
        cases hre
      · rw [hreg, hact] at hre
        dsimp only at hre
        by_cases hd : 0 ≤ differenceInDays (toTimestamp act) (toTimestamp reg)
        · rw [if_pos hd] at hre
          have he2 := Option.some.inj hre
          rw [← he2]
          exact hd
        · rw [if_neg hd] at hre
          cases hre
  · intro hne
    unfold registrationToActionDuration at hne ⊢
    by_cases hrec : records = []
    · rw [if_pos hrec] at hne
      exact absurd rfl hne
    · rw [if_neg hrec] at hne ⊢
      dsimp only at hne ⊢
      by_cases hA : records.filterMap regEntry = []
      · rw [if_pos hA] at hne
        exact absurd rfl hne
      · rw [if_neg hA]
        constructor
        · rfl
        · show (if (List.insertionSort (fun a b : Int => a ≤ b)
              ((records.filterMap regEntry).map RegEntry.regToActionDays)).length % 2 ≠ 0 then
                (Int.cast ((List.insertionSort (fun a b : Int => a ≤ b)
                  ((records.filterMap regEntry).map RegEntry.regToActionDays)).getD
                  ((List.insertionSort (fun a b : Int => a ≤ b)
                    ((records.filterMap regEntry).map RegEntry.regToActionDays)).length / 2) 0) : Rat)
              else (Int.cast ((List.insertionSort (fun a b : Int => a ≤ b)
                  ((records.filterMap regEntry).map RegEntry.regToActionDays)).getD
                  ((List.insertionSort (fun a b : Int => a ≤ b)
                    ((records.filterMap regEntry).map RegEntry.regToActionDays)).length / 2 - 1) 0
                  + (List.insertionSort (fun a b : Int => a ≤ b)
                    ((records.filterMap regEntry).map RegEntry.regToActionDays)).getD
                  ((List.insertionSort (fun a b : Int => a ≤ b)
                    ((records.filterMap regEntry).map RegEntry.regToActionDays)).length / 2) 0) : Rat) / 2)
            = specMedian (specRegDays records)
          unfold specMedian specRegDays
          rcases Nat.mod_two_eq_zero_or_one (List.insertionSort (fun a b : Int => a ≤ b)
              ((records.filterMap regEntry).map RegEntry.regToActionDays)).length with hpar | hpar
          · have hc1 : ¬((List.insertionSort (fun a b : Int => a ≤ b)
                ((records.filterMap regEntry).map RegEntry.regToActionDays)).length % 2 ≠ 0) := by
              omega
            have hc2 : ¬((List.insertionSort (fun a b : Int => a ≤ b)
                ((records.filterMap regEntry).map RegEntry.regToActionDays)).length % 2 = 1) := by
              omega
            rw [if_neg hc1, if_neg hc2]
          · have hc1 : (List.insertionSort (fun a b : Int => a ≤ b)
                ((records.filterMap regEntry).map RegEntry.regToActionDays)).length % 2 ≠ 0 := by
              omega
            rw [if_pos hc1, if_pos hpar]

/-- Witness for the C7 amended theorem at concrete inputs: a registration
nine full days after the action yields no entry, and the single-record stats
equal the spec's average over the retained diffs. -/
theorem regToAction_spec_witness :
    regEntry (mkNormalized "7" "" "" "2024.01.10 00:00:00" none
        (some ⟨2024, 1, 1, 0, 0, 0⟩) none) = none
    ∧ (registrationToActionDuration [regSampleRec]).average
        = specAverage (specRegDays [regSampleRec]) :=
  ⟨(regToAction_spec []).2.2.1 _ ⟨2024, 1, 10, 0, 0, 0⟩ ⟨2024, 1, 1, 0, 0, 0⟩
      (by decide) (by decide) (by decide),
   ((regToAction_spec [regSampleRec]).2.2.2.2 (by decide)).1⟩
